import Mathlib

/-!
Verification of the knowledge-nexus graph consistency and unification engine.

The definitions below are a shallow embedding of the TypeScript sources:
  * `src/types.ts` — the data model (`GraphNode`, `GraphLink`, `GraphData`);
  * `src/utils/graph.ts` — `getNodeId`, `buildLinkKey`, `normalizeGraphPayload`;
  * `src/unnamed/part_003` (current `graphOptimizerService`) — `validateGraph`,
    `findDisconnectedComponents` (union-find with path compression over a
    string-keyed map), and `unifyGraph`;
  * `src/services/geminiService.ts` — the error-handling wrapper of
    `findBridgesBetweenClusters`;
  * `src/unnamed/part_004` (current `App`) — the `handleRefineGraph` flow.

JavaScript `Map` objects are embedded as association lists with
first-occurrence lookup and in-place update (`lookupKV`, `setKV`), which
matches `Map.get` / `Map.set` including insertion-order iteration.
TypeScript optional numeric/string fields become `Option` values.
The recursive `find` of the union-find is embedded with explicit fuel
(`p.length + 1` at every entry point); fuel sufficiency on all reachable
states is proved from the `Rooted` invariant below.
-/

/-- Node record from `src/types.ts`: `val` and `color` are optional. -/
structure GraphNode where
  id : String
  name : String
  type : String
  description : String
  val : Option Int
  color : Option String
deriving Repr, DecidableEq

/-- A link endpoint is either a bare identifier or a hydrated node record
(`source: string | GraphNode` in `src/types.ts`). -/
inductive NodeRef where
  | str (s : String)
  | node (n : GraphNode)
deriving Repr, DecidableEq

/-- Link record from `src/types.ts`. -/
structure GraphLink where
  source : NodeRef
  target : NodeRef
  relationship : String
deriving Repr, DecidableEq

/-- Graph record from `src/types.ts`. -/
structure GraphData where
  nodes : List GraphNode
  links : List GraphLink
deriving Repr, DecidableEq

/-- Embedding of `getNodeId` from `src/utils/graph.ts`: strings pass through, node
records contribute their `id` field. -/
def getNodeId : NodeRef → String
  | .str s => s
  | .node n => n.id

/-- Embedding of `buildLinkKey` from `src/utils/graph.ts`:
`${sourceId}__${link.relationship || ''}__${targetId}`.  The JavaScript
`||` guard maps a falsy (empty) relationship to `''`. -/
def buildLinkKey (l : GraphLink) : String :=
  getNodeId l.source ++ "__" ++ (if l.relationship = "" then "" else l.relationship)
    ++ "__" ++ getNodeId l.target

/-- Embedding of `normalizeGraphPayload` from `src/utils/graph.ts`: rebuild every node
with `val: node.val ?? 1` (nullish coalescing) and `color` passed through,
then keep exactly the links whose resolved endpoints are both ids of the
cleaned nodes, collapsing kept endpoints to bare identifiers. -/
def normalizeGraphPayload (data : GraphData) : GraphData :=
  let nodes := data.nodes.map (fun n =>
    { id := n.id, name := n.name, type := n.type, description := n.description,
      val := some (n.val.getD 1), color := n.color : GraphNode })
  let nodeIds := nodes.map (fun n => n.id)
  let links := data.links.filterMap (fun l =>
    let source := getNodeId l.source
    let target := getNodeId l.target
    if nodeIds.contains source && nodeIds.contains target then
      some { source := NodeRef.str source, target := NodeRef.str target,
             relationship := l.relationship }
    else none)
  { nodes := nodes, links := links }

/-- The links dropped by `normalizeGraphPayload` (the `invalidLinks`
accumulator of `src/utils/graph.ts`, kept for the diagnostic count). -/
def invalidLinksOf (data : GraphData) : List GraphLink :=
  let nodeIds := data.nodes.map (fun n => n.id)
  data.links.filter (fun l =>
    !(nodeIds.contains (getNodeId l.source) && nodeIds.contains (getNodeId l.target)))

/-- Embedding of `ValidationReport` from `src/unnamed/part_003` (`graphOptimizerService`). -/
structure ValidationReport where
  isValid : Bool
  issues : List String
deriving Repr, DecidableEq

/-- Embedding of `GraphExpertSystem.validateGraph`: collects one issue string per missing
endpoint, in link order, source before target. -/
def validateGraph (data : GraphData) : ValidationReport :=
  let nodeIds := data.nodes.map (fun n => n.id)
  let issues := (data.links.enum.map (fun il =>
    let sourceId := getNodeId il.2.source
    let targetId := getNodeId il.2.target
    (if !(nodeIds.contains sourceId) then
      ["Link " ++ toString il.1 ++ " references non-existent source: " ++ sourceId]
     else []) ++
    (if !(nodeIds.contains targetId) then
      ["Link " ++ toString il.1 ++ " references non-existent target: " ++ targetId]
     else []))).flatten
  { isValid := issues.length == 0, issues := issues }

/-- Embedding of `Map.get` on a string-keyed map: first matching entry. -/
def lookupKV : List (String × String) → String → Option String
  | [], _ => none
  | (k, v) :: rest, id => if k = id then some v else lookupKV rest id

/-- Embedding of `Map.set`: update the existing entry in place, else append. -/
def setKV : List (String × String) → String → String → List (String × String)
  | [], k, v => [(k, v)]
  | (k0, v0) :: rest, k, v =>
    if k0 = k then (k, v) :: rest else (k0, v0) :: setKV rest k v

/-- The recursive `find` of `findDisconnectedComponents`, with explicit fuel:
unregistered ids are registered as their own root; otherwise follow the
parent pointer and compress the path on the way out. -/
def findRoot : Nat → List (String × String) → String → String × List (String × String)
  | 0, p, id => (id, p)
  | fuel + 1, p, id =>
    match lookupKV p id with
    | none => (id, setKV p id id)
    | some pid =>
      if pid = id then (id, p)
      else
        let r := findRoot fuel p pid
        (r.1, setKV r.2 id r.1)

/-- Embedding of `find` as called by the source (the recursion always terminates there;
fuel `p.length + 1` is proved sufficient on reachable states below). -/
def ufFind (p : List (String × String)) (id : String) : String × List (String × String) :=
  findRoot (p.length + 1) p id

/-- The `union` closure of `findDisconnectedComponents`: find both roots
(the second find running on the map mutated by the first) and attach the
first root to the second when they differ. -/
def ufUnion (p : List (String × String)) (id1 id2 : String) : List (String × String) :=
  let f1 := ufFind p id1
  let f2 := ufFind f1.2 id2
  if f1.1 ≠ f2.1 then setKV f2.2 f1.1 f2.1 else f2.2

/-- Embedding of the `clustersMap` update: register the root on first sight (insertion order)
and push the node id onto its cluster. -/
def pushCluster : List (String × List String) → String → String → List (String × List String)
  | [], root, id => [(root, [id])]
  | (r, ids) :: rest, root, id =>
    if r = root then (r, ids ++ [id]) :: rest
    else (r, ids) :: pushCluster rest root id

/-- First loop of `findDisconnectedComponents`: `data.nodes.forEach(n => find(n.id))`
starting from the empty parent map. -/
def registerAll (nodes : List GraphNode) : List (String × String) :=
  nodes.foldl (fun p n => (ufFind p n.id).2) []

/-- Second loop of `findDisconnectedComponents`:
`data.links.forEach(link => union(getNodeId(link.source), getNodeId(link.target)))`. -/
def unionLinks (links : List GraphLink) (p : List (String × String)) :
    List (String × String) :=
  links.foldl (fun p l => ufUnion p (getNodeId l.source) (getNodeId l.target)) p

/-- One iteration of the grouping loop: `find` the node's root (further
compressing the map) and push the id onto the root's cluster. -/
def groupStep (acc : List (String × String) × List (String × List String))
    (n : GraphNode) : List (String × String) × List (String × List String) :=
  let fr := ufFind acc.1 n.id
  (fr.2, pushCluster acc.2 fr.1 n.id)

/-- Third loop of `findDisconnectedComponents`: group every node id by its
root, in node order. -/
def groupNodes (nodes : List GraphNode) (p : List (String × String)) :
    List (String × List String) :=
  (nodes.foldl groupStep (p, [])).2

/-- The parent map after the register and union loops. -/
def ufAfterUnions (data : GraphData) : List (String × String) :=
  unionLinks data.links (registerAll data.nodes)

/-- Embedding of `GraphExpertSystem.findDisconnectedComponents` from `src/unnamed/part_003`:
register every node, union across every link (undirected), then group node
ids by their root (`Array.from(clustersMap.values())`). -/
def findDisconnectedComponents (data : GraphData) : List (List String) :=
  (groupNodes data.nodes (ufAfterUnions data)).map (fun e => e.2)

/-- Result record of `GraphExpertSystem.unifyGraph`. -/
structure UnifyResult where
  unifiedData : GraphData
  addedLinksCount : Nat
  clustersCount : Nat
  validation : ValidationReport
deriving Repr, DecidableEq

/-- The deduplication key built inside `unifyGraph`
(`${sourceId}|${targetId}|${link.relationship}`), used both for the
existing-link key set and for each candidate. -/
def unifyLinkKey (l : GraphLink) : String :=
  getNodeId l.source ++ "|" ++ getNodeId l.target ++ "|" ++ l.relationship

/-- The body of the `newLinks.forEach` merge loop of `unifyGraph`
(`src/unnamed/part_003` lines 115-130): skip a candidate whose resolved
endpoints are not both known node ids (Issue 6 guard), skip a candidate
whose key is already an existing link's key, otherwise push it and count
it. -/
def mergeStep (nodeIds existingLinkKeys : List String)
    (acc : List GraphLink × Nat) (link : GraphLink) : List GraphLink × Nat :=
  let sourceId := getNodeId link.source
  let targetId := getNodeId link.target
  if !(nodeIds.contains sourceId) || !(nodeIds.contains targetId) then acc
  else
    let key := sourceId ++ "|" ++ targetId ++ "|" ++ link.relationship
    if existingLinkKeys.contains key then acc
    else (acc.1 ++ [link], acc.2 + 1)

/-- Embedding of `GraphExpertSystem.unifyGraph` from `src/unnamed/part_003`, with the
awaited bridging response passed in as `newLinks`: early-return when at
most one cluster; otherwise run the merge loop over the candidates and
recompute the cluster count on the merged graph (Issue 5 fix). -/
def unifyGraph (data : GraphData) (newLinks : List GraphLink) : UnifyResult :=
  let validation := validateGraph data
  let clusters := findDisconnectedComponents data
  if clusters.length ≤ 1 then
    { unifiedData := data, addedLinksCount := 0,
      clustersCount := clusters.length, validation := validation }
  else
    let existingLinkKeys := data.links.map (fun l =>
      getNodeId l.source ++ "|" ++ getNodeId l.target ++ "|" ++ l.relationship)
    let nodeIds := data.nodes.map (fun n => n.id)
    let merged := newLinks.foldl (mergeStep nodeIds existingLinkKeys) (data.links, 0)
    let unifiedData : GraphData := { nodes := data.nodes, links := merged.1 }
    let finalClusters := findDisconnectedComponents unifiedData
    { unifiedData := unifiedData, addedLinksCount := merged.2,
      clustersCount := finalClusters.length, validation := validation }

/-- The per-existing-link key list built by `unifyGraph` (its
`existingLinkKeys` set). -/
def existingUnifyKeys (data : GraphData) : List String :=
  data.links.map (fun l =>
    getNodeId l.source ++ "|" ++ getNodeId l.target ++ "|" ++ l.relationship)

/-- A candidate survives `unifyGraph`'s merge loop iff both endpoints are
known node ids and its key is not among the existing links' keys. -/
def acceptCandidate (nodeIds existingLinkKeys : List String) (link : GraphLink) : Bool :=
  nodeIds.contains (getNodeId link.source) && nodeIds.contains (getNodeId link.target)
    && !(existingLinkKeys.contains
          (getNodeId link.source ++ "|" ++ getNodeId link.target ++ "|" ++ link.relationship))

/-- Embedding of `findBridgesBetweenClusters` from `src/services/geminiService.ts`,
abstracted over the awaited network/parse step: the body wraps the request
in `try { ... } catch (error) { return []; }`, so a raised error is
swallowed and becomes an empty candidate list. -/
def findBridgesBetweenClusters : Except String (List GraphLink) → List GraphLink
  | Except.ok links => links
  | Except.error _ => []

/-- Outcome of the refine flow in `src/unnamed/part_004`: the `try` arm
ends with the modal in state COMPLETED, the `catch` arm shows the
"Failed to refine the graph." toast. -/
inductive RefineOutcome where
  | completed
  | failed
deriving Repr, DecidableEq

/-- Embedding of `handleRefineGraph` from `src/unnamed/part_004`: await
`unifyGraph` (whose bridging call already catches request errors),
install the unified graph only when links were actually added, and take
the `catch` arm only if the awaited chain itself raised. -/
def handleRefineGraph (graphData : GraphData)
    (bridgeResponse : Except String (List GraphLink)) : RefineOutcome × GraphData :=
  match (Except.ok (unifyGraph graphData (findBridgesBetweenClusters bridgeResponse)) :
      Except String UnifyResult) with
  | Except.error _ => (RefineOutcome.failed, graphData)
  | Except.ok result =>
    let installed := if 0 < result.addedLinksCount then result.unifiedData else graphData
    (RefineOutcome.completed, installed)

/-! Analysis definitions used by the theorems below. -/

namespace NormalizeProofs

/-- The per-node cleanup step of `normalizeGraphPayload`. -/
def cleanNode (n : GraphNode) : GraphNode :=
  { id := n.id, name := n.name, type := n.type, description := n.description,
    val := some (n.val.getD 1), color := n.color }

/-- The link filter of `normalizeGraphPayload`, relative to a list of valid ids. -/
def keepLink (nodeIds : List String) (l : GraphLink) : Option GraphLink :=
  if nodeIds.contains (getNodeId l.source) && nodeIds.contains (getNodeId l.target) then
    some { source := NodeRef.str (getNodeId l.source),
           target := NodeRef.str (getNodeId l.target), relationship := l.relationship }
  else none

end NormalizeProofs

namespace UF

/-- Parent maps of the union-find. -/
abbrev PMap := List (String × String)

/-- A finite parent chain from `id` to its root `r`; `c` is the list of
ids traversed strictly before reaching the root. -/
inductive Chain (p : PMap) : String → String → List String → Prop
  | nil {id : String} : lookupKV p id = none → Chain p id id []
  | self {id : String} : lookupKV p id = some id → Chain p id id []
  | step {id pid r : String} {c : List String} : lookupKV p id = some pid → pid ≠ id →
      Chain p pid r c → Chain p id r (id :: c)

/-- Every id reaches a root: the state is acyclic. -/
def Rooted (p : PMap) : Prop := ∀ id, ∃ r c, Chain p id r c

/-- The proposition that `r` is the root of `id` in state `p`. -/
def rootp (p : PMap) (id r : String) : Prop := ∃ c, Chain p id r c

/-- Every root of `p` stays a root of `q`. -/
def Mono (p q : PMap) : Prop := ∀ id r, rootp p id r → rootp q id r

end UF

/-- Sample nodes used by concrete witnesses. -/
def sampleNodeA : GraphNode := ⟨"A", "Alpha", "Concept", "first", none, none⟩

def sampleNodeB : GraphNode := ⟨"B", "Beta", "Concept", "second", none, none⟩

def sampleNodeZeroVal : GraphNode := ⟨"A", "Alpha", "Concept", "first", some 0, none⟩

namespace NormalizeProofs

theorem cleanNode_idem (n : GraphNode) : cleanNode (cleanNode n) = cleanNode n := by
  cases n with
  | mk id name type description val color => cases val <;> rfl

theorem cleanNode_id (n : GraphNode) : (cleanNode n).id = n.id := rfl

theorem normalize_nodes (g : GraphData) :
    (normalizeGraphPayload g).nodes = g.nodes.map cleanNode := rfl

theorem normalize_nodeIds (g : GraphData) :
    (normalizeGraphPayload g).nodes.map (fun n => n.id) = g.nodes.map (fun n => n.id) := by
  rw [normalize_nodes, List.map_map]
  rfl

theorem normalize_links (g : GraphData) :
    (normalizeGraphPayload g).links
      = g.links.filterMap (keepLink (g.nodes.map (fun n => n.id))) := by
  unfold normalizeGraphPayload keepLink
  simp only [List.map_map]
  rfl

theorem mem_normalize_links {g : GraphData} {l : GraphLink}
    (h : l ∈ (normalizeGraphPayload g).links) :
    ∃ l0 ∈ g.links,
      ((g.nodes.map (fun n => n.id)).contains (getNodeId l0.source)
        && (g.nodes.map (fun n => n.id)).contains (getNodeId l0.target)) = true ∧
      l = { source := NodeRef.str (getNodeId l0.source),
            target := NodeRef.str (getNodeId l0.target), relationship := l0.relationship } := by
  rw [normalize_links] at h
  rcases List.mem_filterMap.mp h with ⟨l0, hl0, hk⟩
  refine ⟨l0, hl0, ?_⟩
  unfold keepLink at hk
  by_cases hc : ((g.nodes.map (fun n => n.id)).contains (getNodeId l0.source)
      && (g.nodes.map (fun n => n.id)).contains (getNodeId l0.target)) = true
  · rw [if_pos hc] at hk
    exact ⟨hc, (Option.some_injective _ hk).symm⟩
  · rw [if_neg hc] at hk
    exact absurd hk (by simp)

end NormalizeProofs

namespace NormalizeProofs

theorem GraphData_eq_of {a b : GraphData} (h1 : a.nodes = b.nodes) (h2 : a.links = b.links) :
    a = b := by
  cases a; cases b; cases h1; cases h2; rfl

theorem filterMap_eq_self {α : Type} (f : α → Option α) (xs : List α)
    (h : ∀ x ∈ xs, f x = some x) : xs.filterMap f = xs := by
  induction xs with
  | nil => rfl
  | cons x xs ih =>
    rw [List.filterMap_cons, h x (by simp)]
    rw [ih (fun y hy => h y (by simp [hy]))]

theorem keepLink_of_mem {g : GraphData} {l : GraphLink}
    (h : l ∈ (normalizeGraphPayload g).links) :
    keepLink (g.nodes.map (fun n => n.id)) l = some l := by
  rcases mem_normalize_links h with ⟨l0, _, hc, rfl⟩
  unfold keepLink
  exact if_pos hc

theorem normalize_idem (g : GraphData) :
    normalizeGraphPayload (normalizeGraphPayload g) = normalizeGraphPayload g := by
  apply GraphData_eq_of
  · have h1 : (normalizeGraphPayload (normalizeGraphPayload g)).nodes
        = (normalizeGraphPayload g).nodes.map cleanNode := normalize_nodes _
    have h2 : (normalizeGraphPayload g).nodes = g.nodes.map cleanNode := normalize_nodes g
    rw [h1, h2, List.map_map]
    exact List.map_congr_left (fun n _ => cleanNode_idem n)
  · rw [normalize_links (normalizeGraphPayload g), normalize_nodeIds]
    exact filterMap_eq_self _ _ (fun l hl => keepLink_of_mem hl)

theorem normalize_integrity_aux {g : GraphData} {l : GraphLink}
    (h : l ∈ (normalizeGraphPayload g).links) :
    getNodeId l.source ∈ (normalizeGraphPayload g).nodes.map (fun n => n.id) ∧
    getNodeId l.target ∈ (normalizeGraphPayload g).nodes.map (fun n => n.id) := by
  rcases mem_normalize_links h with ⟨l0, _, hc, rfl⟩
  rw [normalize_nodeIds]
  simp only [Bool.and_eq_true] at hc
  exact ⟨List.elem_iff.mp hc.1, List.elem_iff.mp hc.2⟩

theorem count_aux (ids : List String) (ls : List GraphLink) :
    (ls.filterMap (keepLink ids)).length
      + (ls.filter (fun l => !(ids.contains (getNodeId l.source)
          && ids.contains (getNodeId l.target)))).length = ls.length := by
  induction ls with
  | nil => rfl
  | cons l ls ih =>
    rw [List.filterMap_cons, List.filter_cons]
    by_cases hs : getNodeId l.source ∈ ids
    · by_cases ht : getNodeId l.target ∈ ids
      · simp [keepLink, hs, ht] at ih ⊢
        omega
      · simp [keepLink, hs, ht] at ih ⊢
        omega
    · simp [keepLink, hs] at ih ⊢
      omega

theorem normalize_count (g : GraphData) :
    (normalizeGraphPayload g).links.length + (invalidLinksOf g).length
      = g.links.length := by
  rw [normalize_links]
  exact count_aux (g.nodes.map (fun n => n.id)) g.links

end NormalizeProofs

/-- C6 fails on the code: `normalizeGraphPayload` uses nullish coalescing
(`??`), so a raw node with `val = 0` keeps `val = 0` instead of being
defaulted to 1. -/
theorem claim_C6_counterexample :
    (normalizeGraphPayload ⟨[sampleNodeZeroVal], []⟩).nodes.map (fun n => n.val)
      = [some 0] ∧ (some 0 : Option Int) ≠ some 1 :=
  ⟨rfl, by decide⟩

/-- C6 amended: the Graph Normalizer outputs, for the i-th raw node, a clean
node carrying the same id, name, type, description and color, with `val`
defaulted to 1 exactly when the raw `val` is absent; a present raw `val`
(including 0) is kept unchanged. -/
theorem claim_C6_normalize_node_fields (g : GraphData) (i : Nat) (n : GraphNode)
    (h : g.nodes[i]? = some n) :
    ∃ m, (normalizeGraphPayload g).nodes[i]? = some m ∧
      m.id = n.id ∧ m.name = n.name ∧ m.type = n.type ∧
      m.description = n.description ∧ m.color = n.color ∧
      (n.val = none → m.val = some 1) ∧ (∀ v, n.val = some v → m.val = some v) := by
  refine ⟨NormalizeProofs.cleanNode n, ?_, rfl, rfl, rfl, rfl, rfl, ?_, ?_⟩
  · rw [NormalizeProofs.normalize_nodes, List.getElem?_map, h]
    rfl
  · intro hv
    simp [NormalizeProofs.cleanNode, hv]
  · intro v hv
    simp [NormalizeProofs.cleanNode, hv]

theorem claim_C6_witness :
    ∃ m, (normalizeGraphPayload ⟨[sampleNodeZeroVal], []⟩).nodes[0]? = some m ∧
      m.id = sampleNodeZeroVal.id ∧ m.name = sampleNodeZeroVal.name ∧
      m.type = sampleNodeZeroVal.type ∧
      m.description = sampleNodeZeroVal.description ∧ m.color = sampleNodeZeroVal.color ∧
      (sampleNodeZeroVal.val = none → m.val = some 1) ∧
      (∀ v, sampleNodeZeroVal.val = some v → m.val = some v) :=
  claim_C6_normalize_node_fields ⟨[sampleNodeZeroVal], []⟩ 0 sampleNodeZeroVal rfl

/-- C7: normalization is idempotent — normalizing an already-normalized
graph produces an equal graph. -/
theorem claim_C7_normalize_idempotent (g : GraphData) :
    normalizeGraphPayload (normalizeGraphPayload g) = normalizeGraphPayload g :=
  NormalizeProofs.normalize_idem g

/-- C8: referential integrity — every link surviving normalization has both
resolved endpoints among the normalized node ids; violating links are
dropped and counted (kept + dropped = total), never silently kept, and the
remaining nodes and links are still returned. -/
theorem claim_C8_normalize_integrity (g : GraphData) :
    (∀ l ∈ (normalizeGraphPayload g).links,
      getNodeId l.source ∈ (normalizeGraphPayload g).nodes.map (fun n => n.id) ∧
      getNodeId l.target ∈ (normalizeGraphPayload g).nodes.map (fun n => n.id)) ∧
    (normalizeGraphPayload g).links.length + (invalidLinksOf g).length = g.links.length :=
  ⟨fun _ hl => NormalizeProofs.normalize_integrity_aux hl, NormalizeProofs.normalize_count g⟩

theorem claim_C8_witness :
    (getNodeId (GraphLink.mk (NodeRef.str "A") (NodeRef.str "A") "self").source
        ∈ (normalizeGraphPayload ⟨[sampleNodeA],
            [⟨NodeRef.str "A", NodeRef.str "A", "self"⟩,
             ⟨NodeRef.str "A", NodeRef.str "Z", "bad"⟩]⟩).nodes.map (fun n => n.id) ∧
      getNodeId (GraphLink.mk (NodeRef.str "A") (NodeRef.str "A") "self").target
        ∈ (normalizeGraphPayload ⟨[sampleNodeA],
            [⟨NodeRef.str "A", NodeRef.str "A", "self"⟩,
             ⟨NodeRef.str "A", NodeRef.str "Z", "bad"⟩]⟩).nodes.map (fun n => n.id)) :=
  (claim_C8_normalize_integrity ⟨[sampleNodeA],
      [⟨NodeRef.str "A", NodeRef.str "A", "self"⟩,
       ⟨NodeRef.str "A", NodeRef.str "Z", "bad"⟩]⟩).1
    ⟨NodeRef.str "A", NodeRef.str "A", "self"⟩ (by decide)

namespace UF

theorem lookupKV_setKV (p : PMap) (k v k' : String) :
    lookupKV (setKV p k v) k' = if k = k' then some v else lookupKV p k' := by
  induction p with
  | nil =>
    by_cases h : k = k' <;> simp [setKV, lookupKV, h]
  | cons e rest ih =>
    obtain ⟨k0, v0⟩ := e
    by_cases h0 : k0 = k
    · subst h0
      by_cases h : k0 = k' <;> simp [setKV, lookupKV, h]
    · by_cases h : k0 = k'
      · subst h
        have hkk : ¬ k = k0 := fun he => h0 he.symm
        simp [setKV, lookupKV, h0, hkk]
      · simp [setKV, lookupKV, h0, h, ih]

theorem lookupKV_mem_keys {p : PMap} {k v : String} (h : lookupKV p k = some v) :
    k ∈ p.map Prod.fst := by
  induction p with
  | nil => simp [lookupKV] at h
  | cons e rest ih =>
    obtain ⟨k0, v0⟩ := e
    by_cases h0 : k0 = k
    · subst h0; simp
    · simp [lookupKV, h0] at h
      simpa using Or.inr (ih h)

theorem setKV_length (p : PMap) (k v : String) :
    p.length ≤ (setKV p k v).length := by
  induction p with
  | nil => simp [setKV]
  | cons e rest ih =>
    obtain ⟨k0, v0⟩ := e
    by_cases h0 : k0 = k <;> simp [setKV, h0]
    · exact ih

theorem chain_det {p : PMap} {id r r' : String} {c c' : List String}
    (h : Chain p id r c) (h' : Chain p id r' c') : r = r' ∧ c = c' := by
  induction h generalizing r' c' with
  | nil hl =>
    cases h' with
    | nil _ => exact ⟨rfl, rfl⟩
    | self hl' => rw [hl] at hl'; cases hl'
    | step hl' _ _ => rw [hl] at hl'; cases hl'
  | self hl =>
    cases h' with
    | nil hl' => rw [hl] at hl'; cases hl'
    | self _ => exact ⟨rfl, rfl⟩
    | step hl' hne _ => rw [hl] at hl'; exact absurd (Option.some_injective _ hl').symm hne
  | step hl hne hc ih =>
    cases h' with
    | nil hl' => rw [hl] at hl'; cases hl'
    | self hl' => rw [hl] at hl'; exact absurd (Option.some_injective _ hl') hne
    | step hl' hne' hc' =>
      rw [hl] at hl'
      cases Option.some_injective _ hl'
      rcases ih hc' with ⟨h1, h2⟩
      exact ⟨h1, by rw [h2]⟩

theorem chain_root_self {p : PMap} {id r : String} {c : List String}
    (h : Chain p id r c) : Chain p r r [] := by
  induction h with
  | nil hl => exact Chain.nil hl
  | self hl => exact Chain.self hl
  | step _ _ _ ih => exact ih

theorem chain_mem_sub {p : PMap} {id r : String} {c : List String}
    (h : Chain p id r c) :
    ∀ x ∈ c, ∃ cx, Chain p x r cx ∧ cx.length ≤ c.length := by
  induction h with
  | nil _ => intro x hx; cases hx
  | self _ => intro x hx; cases hx
  | step hl hne hc ih =>
    intro x hx
    rcases List.mem_cons.mp hx with hx | hx
    · subst hx
      exact ⟨_, Chain.step hl hne hc, le_refl _⟩
    · rcases ih x hx with ⟨cx, hcx, hlen⟩
      exact ⟨cx, hcx, le_trans hlen (by simp)⟩

theorem chain_nodup {p : PMap} {id r : String} {c : List String}
    (h : Chain p id r c) : c.Nodup := by
  induction h with
  | nil _ => exact List.nodup_nil
  | self _ => exact List.nodup_nil
  | step hl hne hc ih =>
    refine List.nodup_cons.mpr ⟨?_, ih⟩
    intro hmem
    rcases chain_mem_sub hc _ hmem with ⟨cx, hcx, hlen⟩
    rcases chain_det (Chain.step hl hne hc) hcx with ⟨_, h2⟩
    rw [← h2] at hlen
    simp at hlen

theorem chain_subset_keys {p : PMap} {id r : String} {c : List String}
    (h : Chain p id r c) : ∀ x ∈ c, x ∈ p.map Prod.fst := by
  induction h with
  | nil _ => intro x hx; cases hx
  | self _ => intro x hx; cases hx
  | step hl _ _ ih =>
    intro x hx
    rcases List.mem_cons.mp hx with hx | hx
    · subst hx; exact lookupKV_mem_keys hl
    · exact ih x hx

theorem chain_length_le {p : PMap} {id r : String} {c : List String}
    (h : Chain p id r c) : c.length ≤ p.length := by
  have h1 : c.toFinset.card = c.length := List.toFinset_card_of_nodup (chain_nodup h)
  have h2 : c.toFinset ⊆ (p.map Prod.fst).toFinset := by
    intro x hx
    exact List.mem_toFinset.mpr (chain_subset_keys h x (List.mem_toFinset.mp hx))
  calc c.length = c.toFinset.card := h1.symm
    _ ≤ (p.map Prod.fst).toFinset.card := Finset.card_le_card h2
    _ ≤ (p.map Prod.fst).length := List.toFinset_card_le _
    _ = p.length := List.length_map _ _

theorem rootp_det {p : PMap} {id r r' : String}
    (h : rootp p id r) (h' : rootp p id r') : r = r' := by
  rcases h with ⟨c, hc⟩
  rcases h' with ⟨c', hc'⟩
  exact (chain_det hc hc').1

theorem rootp_root_self {p : PMap} {id r : String} (h : rootp p id r) : rootp p r r := by
  rcases h with ⟨c, hc⟩
  exact ⟨[], chain_root_self hc⟩

theorem mono_refl (p : PMap) : Mono p p := fun _ _ h => h

theorem mono_trans {p q s : PMap} (h1 : Mono p q) (h2 : Mono q s) : Mono p s :=
  fun id r h => h2 id r (h1 id r h)

theorem mono_rooted {p q : PMap} (h : Mono p q) (hp : Rooted p) : Rooted q :=
  fun id => by
    rcases hp id with ⟨r, c, hc⟩
    rcases h id r ⟨c, hc⟩ with ⟨c', hc'⟩
    exact ⟨r, c', hc'⟩

theorem mono_inv {p q : PMap} (h : Mono p q) (hp : Rooted p) {id r : String}
    (hq : rootp q id r) : rootp p id r := by
  rcases hp id with ⟨r0, c0, hc0⟩
  have h0 : rootp q id r0 := h id r0 ⟨c0, hc0⟩
  rcases rootp_det hq h0 with rfl
  exact ⟨c0, hc0⟩


theorem chain_setKV_root {p : PMap} {id r : String} (hidr : rootp p id r)
    {x s : String} {c : List String} (hc : Chain p x s c) : rootp (setKV p id r) x s := by
  induction hc with
  | @nil y hl =>
    by_cases hy : id = y
    · subst hy
      rcases hidr with ⟨c0, hc0⟩
      rcases chain_det hc0 (Chain.nil hl) with ⟨rfl, rfl⟩
      refine ⟨[], Chain.self ?_⟩
      rw [lookupKV_setKV]
      simp
    · refine ⟨[], Chain.nil ?_⟩
      rw [lookupKV_setKV, if_neg hy]
      exact hl
  | @self y hl =>
    by_cases hy : id = y
    · subst hy
      rcases hidr with ⟨c0, hc0⟩
      rcases chain_det hc0 (Chain.self hl) with ⟨rfl, rfl⟩
      refine ⟨[], Chain.self ?_⟩
      rw [lookupKV_setKV]
      simp
    · refine ⟨[], Chain.self ?_⟩
      rw [lookupKV_setKV, if_neg hy]
      exact hl
  | @step y py s' c' hl hne hc' ih =>
    by_cases hy : id = y
    · subst hy
      rcases hidr with ⟨c0, hc0⟩
      rcases chain_det hc0 (Chain.step hl hne hc') with ⟨rfl, rfl⟩
      by_cases hrid : r = id
      · subst hrid
        refine ⟨[], Chain.self ?_⟩
        rw [lookupKV_setKV]
        simp
      · rcases rootp_root_self ⟨_, Chain.step hl hne hc'⟩ with ⟨cr, hcr⟩
        have hcr0 : Chain p r r [] := by
          rcases chain_det hcr (chain_root_self hcr) with ⟨_, _⟩
          exact chain_root_self hcr
        refine ⟨[id], Chain.step ?_ hrid ?_⟩
        · rw [lookupKV_setKV]
          simp
        · cases hcr0 with
          | nil hl0 =>
            refine Chain.nil ?_
            rw [lookupKV_setKV, if_neg (fun he => hrid he.symm)]
            exact hl0
          | self hl0 =>
            refine Chain.self ?_
            rw [lookupKV_setKV, if_neg (fun he => hrid he.symm)]
            exact hl0
    · rcases ih with ⟨c'', hc''⟩
      refine ⟨y :: c'', Chain.step ?_ hne hc''⟩
      rw [lookupKV_setKV, if_neg hy]
      exact hl

theorem mono_setKV_root {p : PMap} {id r : String} (h : rootp p id r) :
    Mono p (setKV p id r) := by
  intro x s hs
  rcases hs with ⟨c, hc⟩
  exact chain_setKV_root h hc

theorem findRoot_spec (fuel : Nat) : ∀ (p : PMap) (i r : String) (c : List String),
    Chain p i r c → c.length < fuel →
    (findRoot fuel p i).1 = r ∧ Mono p (findRoot fuel p i).2 := by
  induction fuel with
  | zero =>
    intro p i r c _ hlen
    exact absurd hlen (by omega)
  | succ fuel ih =>
    intro p i r c hc hlen
    cases hl : lookupKV p i with
    | none =>
      obtain ⟨hri, hc0⟩ := chain_det hc (Chain.nil hl)
      constructor
      · rw [hri]
        simp [findRoot, hl]
      · have hst : (findRoot (fuel + 1) p i).2 = setKV p i i := by simp [findRoot, hl]
        rw [hst]
        exact mono_setKV_root ⟨[], Chain.nil hl⟩
    | some pid =>
      by_cases hpid : pid = i
      · rw [hpid] at hl
        obtain ⟨hri, hc0⟩ := chain_det hc (Chain.self hl)
        constructor
        · rw [hri]
          simp [findRoot, hl]
        · have hst : (findRoot (fuel + 1) p i).2 = p := by simp [findRoot, hl]
          rw [hst]
          exact mono_refl p
      · cases hc with
        | nil hl2 => rw [hl] at hl2; cases hl2
        | self hl2 =>
          rw [hl] at hl2
          exact absurd (Option.some_injective _ hl2) hpid
        | @step _ pid2 _ c2 hl2 hne2 hc2 =>
          rw [hl] at hl2
          cases Option.some_injective _ hl2
          have hlen2 : c2.length < fuel := by
            simp only [List.length_cons] at hlen
            omega
          obtain ⟨hroot, hmono⟩ := ih p pid r c2 hc2 hlen2
          have hres1 : (findRoot (fuel + 1) p i).1 = (findRoot fuel p pid).1 := by
            simp [findRoot, hl, hpid]
          have hres2 : (findRoot (fuel + 1) p i).2
              = setKV (findRoot fuel p pid).2 i (findRoot fuel p pid).1 := by
            simp [findRoot, hl, hpid]
          refine ⟨by rw [hres1, hroot], ?_⟩
          rw [hres2, hroot]
          refine mono_trans hmono (mono_setKV_root ?_)
          exact hmono i r ⟨i :: c2, Chain.step hl hne2 hc2⟩

theorem ufFind_spec {p : PMap} (hp : Rooted p) (id : String) :
    rootp p id (ufFind p id).1 ∧ Mono p (ufFind p id).2 := by
  rcases hp id with ⟨r, c, hc⟩
  have hlen : c.length < p.length + 1 := by
    have := chain_length_le hc
    omega
  obtain ⟨h1, h2⟩ := findRoot_spec (p.length + 1) p id r c hc hlen
  constructor
  · show rootp p id (findRoot (p.length + 1) p id).1
    rw [h1]
    exact ⟨c, hc⟩
  · exact h2

theorem chain_setKV_reroot {p : PMap} {ra rb : String}
    (hra : Chain p ra ra []) (hrb : Chain p rb rb []) (hne : ra ≠ rb) :
    ∀ {x s : String} {c : List String}, Chain p x s c →
      rootp (setKV p ra rb) x (if s = ra then rb else s) := by
  intro x s c hc
  have hrb' : Chain (setKV p ra rb) rb rb [] := by
    cases hrb with
    | nil hl0 =>
      refine Chain.nil ?_
      rw [lookupKV_setKV, if_neg hne]
      exact hl0
    | self hl0 =>
      refine Chain.self ?_
      rw [lookupKV_setKV, if_neg hne]
      exact hl0
  induction hc with
  | @nil y hl =>
    by_cases hy : y = ra
    · subst hy
      rw [if_pos rfl]
      refine ⟨[y], Chain.step ?_ (fun he => hne he.symm) hrb'⟩
      rw [lookupKV_setKV]
      simp
    · rw [if_neg hy]
      refine ⟨[], Chain.nil ?_⟩
      rw [lookupKV_setKV, if_neg (fun he => hy he.symm)]
      exact hl
  | @self y hl =>
    by_cases hy : y = ra
    · subst hy
      rw [if_pos rfl]
      refine ⟨[y], Chain.step ?_ (fun he => hne he.symm) hrb'⟩
      rw [lookupKV_setKV]
      simp
    · rw [if_neg hy]
      refine ⟨[], Chain.self ?_⟩
      rw [lookupKV_setKV, if_neg (fun he => hy he.symm)]
      exact hl
  | @step y py s' c' hl hpy hc' ih =>
    have hy : y ≠ ra := by
      intro he
      subst he
      cases hra with
      | nil hl0 => rw [hl] at hl0; cases hl0
      | self hl0 =>
        rw [hl] at hl0
        exact hpy (Option.some_injective _ hl0)
    rcases ih with ⟨c'', hc''⟩
    refine ⟨y :: c'', Chain.step ?_ hpy hc''⟩
    rw [lookupKV_setKV, if_neg (fun he => hy he.symm)]
    exact hl

theorem ufUnion_spec {p : PMap} (hp : Rooted p) (a b : String) :
    ∃ ra rb, rootp p a ra ∧ rootp p b rb ∧
      (∀ x s, rootp p x s → rootp (ufUnion p a b) x (if s = ra then rb else s)) := by
  obtain ⟨hfa, hma⟩ := ufFind_spec hp a
  have hp1 : Rooted (ufFind p a).2 := mono_rooted hma hp
  obtain ⟨hfb, hmb⟩ := ufFind_spec hp1 b
  refine ⟨(ufFind p a).1, (ufFind (ufFind p a).2 b).1, hfa, mono_inv hma hp hfb, ?_⟩
  intro x s hs
  have hs2 : rootp (ufFind (ufFind p a).2 b).2 x s := hmb x s (hma x s hs)
  have huni : ufUnion p a b =
      if (ufFind p a).1 ≠ (ufFind (ufFind p a).2 b).1 then
        setKV (ufFind (ufFind p a).2 b).2 (ufFind p a).1 (ufFind (ufFind p a).2 b).1
      else (ufFind (ufFind p a).2 b).2 := rfl
  by_cases hab : (ufFind p a).1 = (ufFind (ufFind p a).2 b).1
  · rw [huni, if_neg (by simpa using hab)]
    by_cases hsra : s = (ufFind p a).1
    · rw [if_pos hsra, ← hab, ← hsra]
      exact hs2
    · rw [if_neg hsra]
      exact hs2
  · rw [huni, if_pos (by simpa using hab)]
    have hra2 : rootp (ufFind (ufFind p a).2 b).2 a (ufFind p a).1 :=
      hmb _ _ (hma _ _ hfa)
    rcases rootp_root_self hra2 with ⟨ca, hca⟩
    have hraroot : Chain (ufFind (ufFind p a).2 b).2 (ufFind p a).1 (ufFind p a).1 [] := by
      rcases chain_det hca (chain_root_self hca) with ⟨_, _⟩
      exact chain_root_self hca
    rcases rootp_root_self (hmb _ _ hfb) with ⟨cb, hcb⟩
    have hrbroot : Chain (ufFind (ufFind p a).2 b).2
        (ufFind (ufFind p a).2 b).1 (ufFind (ufFind p a).2 b).1 [] :=
      chain_root_self hcb
    rcases hs2 with ⟨cs, hcs⟩
    exact chain_setKV_reroot hraroot hrbroot hab hcs


theorem rooted_nil : Rooted ([] : PMap) := fun i => ⟨i, [], Chain.nil rfl⟩

theorem registerAll_spec (nodes : List GraphNode) :
    Rooted (registerAll nodes) ∧ ∀ x, rootp (registerAll nodes) x x := by
  suffices h : ∀ (p : PMap), Rooted p → (∀ x, rootp p x x) →
      Rooted (nodes.foldl (fun p n => (ufFind p n.id).2) p) ∧
      (∀ x, rootp (nodes.foldl (fun p n => (ufFind p n.id).2) p) x x) by
    exact h [] rooted_nil (fun x => ⟨[], Chain.nil rfl⟩)
  induction nodes with
  | nil => exact fun p hp hs => ⟨hp, hs⟩
  | cons n ns ih =>
    intro p hp hs
    obtain ⟨_, hm⟩ := ufFind_spec hp n.id
    exact ih _ (mono_rooted hm hp) (fun x => hm x x (hs x))

theorem unionLinks_spec (links : List GraphLink) : ∀ (p : PMap), Rooted p →
    Rooted (unionLinks links p) ∧
    (∀ a b, (∃ s, rootp p a s ∧ rootp p b s) →
      ∃ s, rootp (unionLinks links p) a s ∧ rootp (unionLinks links p) b s) ∧
    (∀ l ∈ links, ∃ s, rootp (unionLinks links p) (getNodeId l.source) s ∧
        rootp (unionLinks links p) (getNodeId l.target) s) := by
  induction links with
  | nil =>
    intro p hp
    exact ⟨hp, fun a b h => h, by simp⟩
  | cons l ls ih =>
    intro p hp
    obtain ⟨ra, rb, hra, hrb, hmap⟩ :=
      ufUnion_spec hp (getNodeId l.source) (getNodeId l.target)
    have hq : Rooted (ufUnion p (getNodeId l.source) (getNodeId l.target)) := by
      intro x
      rcases hp x with ⟨s, c, hc⟩
      rcases hmap x s ⟨c, hc⟩ with ⟨c2, hc2⟩
      exact ⟨_, c2, hc2⟩
    obtain ⟨h1, h2, h3⟩ := ih _ hq
    have hfold : unionLinks (l :: ls) p
        = unionLinks ls (ufUnion p (getNodeId l.source) (getNodeId l.target)) := rfl
    rw [hfold]
    refine ⟨h1, ?_, ?_⟩
    · rintro a b ⟨s, hsa, hsb⟩
      exact h2 a b ⟨_, hmap a s hsa, hmap b s hsb⟩
    · intro l2 hl2
      rcases List.mem_cons.mp hl2 with rfl | hl2
      · refine h2 _ _ ⟨rb, ?_, ?_⟩
        · simpa using hmap _ ra hra
        · by_cases hab : rb = ra
          · simpa [hab] using hmap _ rb hrb
          · simpa [hab] using hmap _ rb hrb
      · exact h3 l2 hl2

theorem pushCluster_keys (m : List (String × List String)) (root i : String) :
    (pushCluster m root i).map Prod.fst
      = if root ∈ m.map Prod.fst then m.map Prod.fst
        else m.map Prod.fst ++ [root] := by
  induction m with
  | nil => simp [pushCluster]
  | cons e rest ih =>
    obtain ⟨r, ids⟩ := e
    by_cases hr : r = root
    · subst hr
      simp [pushCluster]
    · have hne : ¬ root = r := fun he => hr he.symm
      by_cases hmem : root ∈ rest.map Prod.fst
      · simp [pushCluster, hr, ih, hmem, hne]
      · simp [pushCluster, hr, ih, hmem, hne]

theorem pushCluster_cases {m : List (String × List String)} {root i : String}
    {e : String × List String} (he : e ∈ pushCluster m root i) :
    e ∈ m ∨ (e.1 = root ∧ ∃ tail, e.2 = tail ++ [i] ∧ ((root, tail) ∈ m ∨ tail = [])) := by
  induction m with
  | nil =>
    simp [pushCluster] at he
    subst he
    exact Or.inr ⟨rfl, [], rfl, Or.inr rfl⟩
  | cons f rest ih =>
    obtain ⟨r, ids⟩ := f
    by_cases hr : r = root
    · subst hr
      simp only [pushCluster, if_pos rfl] at he
      rcases List.mem_cons.mp he with rfl | he
      · exact Or.inr ⟨rfl, ids, rfl, Or.inl (by simp)⟩
      · exact Or.inl (List.mem_cons_of_mem _ he)
    · simp only [pushCluster, if_neg hr] at he
      rcases List.mem_cons.mp he with rfl | he
      · exact Or.inl (by simp)
      · rcases ih he with h | ⟨h1, tail, h2, h3⟩
        · exact Or.inl (List.mem_cons_of_mem _ h)
        · refine Or.inr ⟨h1, tail, h2, ?_⟩
          rcases h3 with h3 | h3
          · exact Or.inl (List.mem_cons_of_mem _ h3)
          · exact Or.inr h3

theorem pushCluster_covers (m : List (String × List String)) (root i : String) :
    ∀ e ∈ m, ∃ f ∈ pushCluster m root i, f.1 = e.1 ∧ ∀ x ∈ e.2, x ∈ f.2 := by
  induction m with
  | nil => intro e he; cases he
  | cons g rest ih =>
    obtain ⟨r, ids⟩ := g
    intro e he
    by_cases hr : r = root
    · subst hr
      rcases List.mem_cons.mp he with rfl | he
      · exact ⟨(r, ids ++ [i]), by simp [pushCluster], rfl, fun x hx => by simp [hx]⟩
      · exact ⟨e, by simp [pushCluster, List.mem_cons_of_mem _ he], rfl, fun x hx => hx⟩
    · rcases List.mem_cons.mp he with rfl | he
      · exact ⟨(r, ids), by simp [pushCluster, hr], rfl, fun x hx => hx⟩
      · rcases ih e he with ⟨f, hf, hf1, hf2⟩
        exact ⟨f, by simp [pushCluster, hr, Or.inr hf], hf1, hf2⟩

theorem pushCluster_new (m : List (String × List String)) (root i : String) :
    ∃ f ∈ pushCluster m root i, f.1 = root ∧ i ∈ f.2 := by
  induction m with
  | nil => exact ⟨(root, [i]), by simp [pushCluster], rfl, by simp⟩
  | cons g rest ih =>
    obtain ⟨r, ids⟩ := g
    by_cases hr : r = root
    · subst hr
      exact ⟨(r, ids ++ [i]), by simp [pushCluster], rfl, by simp⟩
    · rcases ih with ⟨f, hf, hf1, hf2⟩
      exact ⟨f, by simp [pushCluster, hr, Or.inr hf], hf1, hf2⟩

theorem pushCluster_notmem {m : List (String × List String)} {root : String}
    (h : root ∉ m.map Prod.fst) (i : String) :
    pushCluster m root i = m ++ [(root, [i])] := by
  induction m with
  | nil => simp [pushCluster]
  | cons g rest ih =>
    obtain ⟨r, ids⟩ := g
    simp only [List.map_cons, List.mem_cons] at h
    push_neg at h
    have hr : r ≠ root := fun he => h.1 he.symm
    simp [pushCluster, hr, ih h.2]

theorem nodup_append_singleton {l : List String} {a : String}
    (h : l.Nodup) (ha : a ∉ l) : (l ++ [a]).Nodup := by
  simp [List.nodup_append, h, ha]

theorem entries_eq_of_keys_nodup {m : List (String × List String)}
    (h : (m.map Prod.fst).Nodup) {e f : String × List String}
    (he : e ∈ m) (hf : f ∈ m) (hef : e.1 = f.1) : e = f := by
  induction m with
  | nil => cases he
  | cons g rest ih =>
    simp only [List.map_cons, List.nodup_cons] at h
    rcases List.mem_cons.mp he with he1 | he2
    · rcases List.mem_cons.mp hf with hf1 | hf2
      · rw [he1, hf1]
      · exfalso
        apply h.1
        rw [← he1, hef]
        exact List.mem_map_of_mem Prod.fst hf2
    · rcases List.mem_cons.mp hf with hf1 | hf2
      · exfalso
        apply h.1
        rw [← hf1, ← hef]
        exact List.mem_map_of_mem Prod.fst he2
      · exact ih h.2 he2 hf2

theorem group_aux {p2 : PMap} (hp2 : Rooted p2) :
    ∀ (todo : List GraphNode) (p : PMap) (m : List (String × List String))
      (doneIds : List String),
    Rooted p → Mono p2 p →
    (∀ e ∈ m, ∀ x ∈ e.2, rootp p2 x e.1) →
    (∀ e ∈ m, ∀ x ∈ e.2, x ∈ doneIds) →
    (∀ x ∈ doneIds, ∃ e ∈ m, x ∈ e.2) →
    (m.map Prod.fst).Nodup →
    (∀ e ∈ (todo.foldl groupStep (p, m)).2, ∀ x ∈ e.2, rootp p2 x e.1) ∧
    (∀ e ∈ (todo.foldl groupStep (p, m)).2, ∀ x ∈ e.2,
        x ∈ doneIds ++ todo.map (fun n => n.id)) ∧
    (∀ x ∈ doneIds ++ todo.map (fun n => n.id),
        ∃ e ∈ (todo.foldl groupStep (p, m)).2, x ∈ e.2) ∧
    ((todo.foldl groupStep (p, m)).2.map Prod.fst).Nodup := by
  intro todo
  induction todo with
  | nil =>
    intro p m doneIds _ _ hC hD hE hF
    refine ⟨hC, ?_, ?_, hF⟩
    · intro e he x hx
      simpa using hD e he x hx
    · intro x hx
      exact hE x (by simpa using hx)
  | cons n ns ih =>
    intro p m doneIds hp hmono hC hD hE hF
    obtain ⟨hfr, hfm⟩ := ufFind_spec hp n.id
    have hroot2 : rootp p2 n.id (ufFind p n.id).1 := mono_inv hmono hp2 hfr
    have hC2 : ∀ e ∈ pushCluster m (ufFind p n.id).1 n.id, ∀ x ∈ e.2, rootp p2 x e.1 := by
      intro e he x hx
      rcases pushCluster_cases he with he | ⟨he1, tail, he2, he3⟩
      · exact hC e he x hx
      · rw [he2] at hx
        rcases List.mem_append.mp hx with hx | hx
        · rcases he3 with h3 | rfl
          · rw [he1]
            exact hC _ h3 x hx
          · cases hx
        · have hxi : x = n.id := by simpa using hx
          rw [he1, hxi]
          exact hroot2
    have hD2 : ∀ e ∈ pushCluster m (ufFind p n.id).1 n.id, ∀ x ∈ e.2,
        x ∈ doneIds ++ [n.id] := by
      intro e he x hx
      rcases pushCluster_cases he with he | ⟨he1, tail, he2, he3⟩
      · exact List.mem_append.mpr (Or.inl (hD e he x hx))
      · rw [he2] at hx
        rcases List.mem_append.mp hx with hx | hx
        · rcases he3 with h3 | rfl
          · exact List.mem_append.mpr (Or.inl (hD _ h3 x hx))
          · cases hx
        · have hxi : x = n.id := by simpa using hx
          exact List.mem_append.mpr (Or.inr (by simp [hxi]))
    have hE2 : ∀ x ∈ doneIds ++ [n.id],
        ∃ e ∈ pushCluster m (ufFind p n.id).1 n.id, x ∈ e.2 := by
      intro x hx
      rcases List.mem_append.mp hx with hx | hx
      · rcases hE x hx with ⟨e, he, hxe⟩
        rcases pushCluster_covers m (ufFind p n.id).1 n.id e he with ⟨f, hf, _, hsub⟩
        exact ⟨f, hf, hsub x hxe⟩
      · have hxi : x = n.id := by simpa using hx
        rcases pushCluster_new m (ufFind p n.id).1 n.id with ⟨f, hf, _, hif⟩
        exact ⟨f, hf, hxi ▸ hif⟩
    have hF2 : ((pushCluster m (ufFind p n.id).1 n.id).map Prod.fst).Nodup := by
      rw [pushCluster_keys]
      by_cases hmem : (ufFind p n.id).1 ∈ m.map Prod.fst
      · rw [if_pos hmem]
        exact hF
      · rw [if_neg hmem]
        exact nodup_append_singleton hF hmem
    have hstep := ih (ufFind p n.id).2 (pushCluster m (ufFind p n.id).1 n.id)
      (doneIds ++ [n.id]) (mono_rooted hfm hp) (mono_trans hmono hfm) hC2 hD2 hE2 hF2
    have hfold : ((n :: ns).foldl groupStep (p, m))
        = (ns.foldl groupStep ((ufFind p n.id).2, pushCluster m (ufFind p n.id).1 n.id)) := rfl
    rw [hfold]
    simpa [List.append_assoc] using hstep

theorem group_singletons :
    ∀ (todo : List GraphNode) (p : PMap) (m : List (String × List String)),
    Rooted p → (∀ x, rootp p x x) →
    (∀ n ∈ todo, n.id ∉ m.map Prod.fst) →
    (todo.map (fun n => n.id)).Nodup →
    (todo.foldl groupStep (p, m)).2 = m ++ todo.map (fun n => (n.id, [n.id])) := by
  intro todo
  induction todo with
  | nil =>
    intro p m _ _ _ _
    simp
  | cons n ns ih =>
    intro p m hp hself hfresh hnodup
    obtain ⟨hfr, hfm⟩ := ufFind_spec hp n.id
    have hrn : (ufFind p n.id).1 = n.id := rootp_det hfr (hself n.id)
    have hpush : pushCluster m (ufFind p n.id).1 n.id = m ++ [(n.id, [n.id])] := by
      rw [hrn]
      exact pushCluster_notmem (hfresh n (by simp)) n.id
    have hfold : ((n :: ns).foldl groupStep (p, m))
        = (ns.foldl groupStep ((ufFind p n.id).2, pushCluster m (ufFind p n.id).1 n.id)) := rfl
    rw [hfold, hpush]
    simp only [List.map_cons, List.nodup_cons] at hnodup
    rw [ih _ _ (mono_rooted hfm hp) (fun x => hfm x x (hself x)) ?_ hnodup.2]
    · simp
    · intro n2 hn2
      simp only [List.map_append, List.mem_append]
      push_neg
      constructor
      · exact hfresh n2 (by simp [hn2])
      · have : n2.id ∈ ns.map (fun n => n.id) := List.mem_map_of_mem _ hn2
        intro hmem
        simp only [List.map_cons, List.map_nil, List.mem_cons] at hmem
        rcases hmem with hmem | hmem
        · exact hnodup.1 (hmem ▸ this)
        · cases hmem

theorem components_spec (data : GraphData) :
    ∃ m : List (String × List String),
      findDisconnectedComponents data = m.map (fun e => e.2) ∧
      (∀ e ∈ m, ∀ x ∈ e.2, rootp (ufAfterUnions data) x e.1) ∧
      (∀ e ∈ m, ∀ x ∈ e.2, x ∈ data.nodes.map (fun n => n.id)) ∧
      (∀ x ∈ data.nodes.map (fun n => n.id), ∃ e ∈ m, x ∈ e.2) ∧
      (m.map Prod.fst).Nodup := by
  obtain ⟨hr1, _⟩ := registerAll_spec data.nodes
  obtain ⟨hr2, _, _⟩ := unionLinks_spec data.links (registerAll data.nodes) hr1
  have haux := group_aux hr2 data.nodes (ufAfterUnions data) [] []
    hr2 (mono_refl _) (by intro e he; cases he) (by intro e he; cases he)
    (by intro x hx; cases hx) List.nodup_nil
  obtain ⟨hC, hD, hE, hF⟩ := haux
  refine ⟨(data.nodes.foldl groupStep (ufAfterUnions data, [])).2, rfl, hC, ?_, ?_, hF⟩
  · intro e he x hx
    simpa using hD e he x hx
  · intro x hx
    exact hE x (by simpa using hx)

theorem components_links_aux (data : GraphData) :
    ∀ l ∈ data.links,
      getNodeId l.source ∈ data.nodes.map (fun n => n.id) →
      getNodeId l.target ∈ data.nodes.map (fun n => n.id) →
      ∃ c ∈ findDisconnectedComponents data,
        getNodeId l.source ∈ c ∧ getNodeId l.target ∈ c := by
  intro l hl hsrc htgt
  obtain ⟨m, hcomps, hC, _, hE, hF⟩ := components_spec data
  obtain ⟨hr1, _⟩ := registerAll_spec data.nodes
  obtain ⟨_, _, hlinks⟩ := unionLinks_spec data.links (registerAll data.nodes) hr1
  obtain ⟨s, hs1, hs2⟩ := hlinks l hl
  obtain ⟨e, he, hxe⟩ := hE _ hsrc
  obtain ⟨f, hf, hxf⟩ := hE _ htgt
  have he1 : e.1 = s := rootp_det (hC e he _ hxe) hs1
  have hf1 : f.1 = s := rootp_det (hC f hf _ hxf) hs2
  have hef : e = f := entries_eq_of_keys_nodup hF he hf (by rw [he1, hf1])
  refine ⟨e.2, ?_, hxe, ?_⟩
  · rw [hcomps]
    exact List.mem_map_of_mem _ he
  · rw [hef]
    exact hxf

theorem components_pairwise_aux (data : GraphData) :
    List.Pairwise (fun c1 c2 => ∀ x ∈ c1, x ∉ c2) (findDisconnectedComponents data) := by
  obtain ⟨m, hcomps, hC, _, _, hF⟩ := components_spec data
  rw [hcomps]
  rw [List.pairwise_map]
  have hkeys : m.Pairwise (fun e f => e.1 ≠ f.1) := List.pairwise_map.mp hF
  refine List.Pairwise.imp_of_mem ?_ hkeys
  intro e f he hf hne x hxe hxf
  exact hne (rootp_det (hC e he x hxe) (hC f hf x hxf))

theorem components_cover_aux (data : GraphData) :
    ∀ x, (∃ c ∈ findDisconnectedComponents data, x ∈ c)
      ↔ x ∈ data.nodes.map (fun n => n.id) := by
  obtain ⟨m, hcomps, _, hD, hE, _⟩ := components_spec data
  intro x
  constructor
  · rintro ⟨c, hc, hxc⟩
    rw [hcomps] at hc
    rcases List.mem_map.mp hc with ⟨e, he, rfl⟩
    exact hD e he x hxc
  · intro hx
    rcases hE x hx with ⟨e, he, hxe⟩
    refine ⟨e.2, ?_, hxe⟩
    rw [hcomps]
    exact List.mem_map_of_mem _ he

theorem components_singletons_aux (data : GraphData) (hlinks : data.links = [])
    (hnodup : (data.nodes.map (fun n => n.id)).Nodup) :
    findDisconnectedComponents data = data.nodes.map (fun n => [n.id]) := by
  obtain ⟨hr1, hself1⟩ := registerAll_spec data.nodes
  have hP : ufAfterUnions data = registerAll data.nodes := by
    unfold ufAfterUnions
    rw [hlinks]
    rfl
  unfold findDisconnectedComponents groupNodes
  rw [hP]
  rw [group_singletons data.nodes (registerAll data.nodes) [] hr1 hself1
    (by intro n _ hmem; cases hmem) hnodup]
  rw [List.nil_append, List.map_map]
  rfl

end UF

/-- C9 fails as stated for graphs that violate referential integrity: with
node `A` and the dangling link `B -> C`, the only component is `["A"]`, so
the link's endpoints do not fall in any common component; and with a
duplicated node id and zero links the result is one two-element cluster,
not one singleton per node. -/
theorem claim_C9_counterexample :
    (findDisconnectedComponents ⟨[⟨"A", "Alpha", "t", "d", none, none⟩],
        [⟨NodeRef.str "B", NodeRef.str "C", "x"⟩]⟩ = [["A"]] ∧
      ¬ ∃ c ∈ findDisconnectedComponents ⟨[⟨"A", "Alpha", "t", "d", none, none⟩],
          [⟨NodeRef.str "B", NodeRef.str "C", "x"⟩]⟩,
        getNodeId (NodeRef.str "B") ∈ c ∧ getNodeId (NodeRef.str "C") ∈ c) ∧
    (findDisconnectedComponents ⟨[⟨"A", "Alpha", "t", "d", none, none⟩,
        ⟨"A", "Alpha2", "t", "d", none, none⟩], []⟩ = [["A", "A"]] ∧
      ([["A", "A"]] : List (List String))
        ≠ [⟨"A", "Alpha", "t", "d", none, none⟩,
           ⟨"A", "Alpha2", "t", "d", none, none⟩].map (fun n : GraphNode => [n.id])) := by
  refine ⟨⟨rfl, by decide⟩, rfl, by decide⟩

/-- C9 amended: `findDisconnectedComponents` partitions the node-identifier
set (components are pairwise disjoint and their union is exactly the node
ids); every link both of whose resolved endpoints are node ids has both
endpoints in one common component; when the graph has zero links and no
duplicate node ids the result is one singleton component per node, in node
order — in particular a single node with no links yields one singleton
component. -/
theorem claim_C9_components :
    (∀ data : GraphData,
      List.Pairwise (fun c1 c2 => ∀ x ∈ c1, x ∉ c2) (findDisconnectedComponents data) ∧
      (∀ x, (∃ c ∈ findDisconnectedComponents data, x ∈ c)
        ↔ x ∈ data.nodes.map (fun n => n.id)) ∧
      (∀ l ∈ data.links,
        getNodeId l.source ∈ data.nodes.map (fun n => n.id) →
        getNodeId l.target ∈ data.nodes.map (fun n => n.id) →
        ∃ c ∈ findDisconnectedComponents data,
          getNodeId l.source ∈ c ∧ getNodeId l.target ∈ c) ∧
      (data.links = [] → (data.nodes.map (fun n => n.id)).Nodup →
        findDisconnectedComponents data = data.nodes.map (fun n => [n.id]))) ∧
    (∀ n : GraphNode, findDisconnectedComponents ⟨[n], []⟩ = [[n.id]]) := by
  constructor
  · intro data
    exact ⟨UF.components_pairwise_aux data, UF.components_cover_aux data,
      UF.components_links_aux data, UF.components_singletons_aux data⟩
  · intro n
    have := UF.components_singletons_aux ⟨[n], []⟩ rfl (by simp)
    simpa using this

theorem claim_C9_witness :
    ∃ c ∈ findDisconnectedComponents ⟨[⟨"A", "Alpha", "t", "d", none, none⟩,
        ⟨"B", "Beta", "t", "d", none, none⟩],
        [⟨NodeRef.str "A", NodeRef.str "B", "r"⟩]⟩,
      getNodeId (NodeRef.str "A") ∈ c ∧ getNodeId (NodeRef.str "B") ∈ c :=
  ((claim_C9_components.1 ⟨[⟨"A", "Alpha", "t", "d", none, none⟩,
      ⟨"B", "Beta", "t", "d", none, none⟩],
      [⟨NodeRef.str "A", NodeRef.str "B", "r"⟩]⟩).2.2.1
    ⟨NodeRef.str "A", NodeRef.str "B", "r"⟩ (by simp) (by decide) (by decide))

namespace UnifyProofs

theorem mergeStep_fold (nodeIds keys : List String) :
    ∀ (ls : List GraphLink) (init : List GraphLink) (k : Nat),
      ls.foldl (mergeStep nodeIds keys) (init, k)
        = (init ++ ls.filter (acceptCandidate nodeIds keys),
           k + (ls.filter (acceptCandidate nodeIds keys)).length) := by
  intro ls
  induction ls with
  | nil =>
    intro init k
    simp
  | cons l ls ih =>
    intro init k
    rw [List.foldl_cons, List.filter_cons]
    by_cases h1 : getNodeId l.source ∈ nodeIds
    · by_cases h2 : getNodeId l.target ∈ nodeIds
      · by_cases h3 :
            (getNodeId l.source ++ "|" ++ getNodeId l.target ++ "|" ++ l.relationship) ∈ keys
        · have hstep : mergeStep nodeIds keys (init, k) l = (init, k) := by
            simp [mergeStep, h1, h2, h3]
          have hacc : acceptCandidate nodeIds keys l = false := by
            simp [acceptCandidate, h1, h2, h3]
          rw [hstep, hacc, ih]
          simp
        · have hstep : mergeStep nodeIds keys (init, k) l = (init ++ [l], k + 1) := by
            simp [mergeStep, h1, h2, h3]
          have hacc : acceptCandidate nodeIds keys l = true := by
            simp [acceptCandidate, h1, h2, h3]
          rw [hstep, hacc, ih]
          simp [List.append_assoc]
          omega
      · have hstep : mergeStep nodeIds keys (init, k) l = (init, k) := by
          simp [mergeStep, h1, h2]
        have hacc : acceptCandidate nodeIds keys l = false := by
          simp [acceptCandidate, h1, h2]
        rw [hstep, hacc, ih]
        simp
    · have hstep : mergeStep nodeIds keys (init, k) l = (init, k) := by
        simp [mergeStep, h1]
      have hacc : acceptCandidate nodeIds keys l = false := by
        simp [acceptCandidate, h1]
      rw [hstep, hacc, ih]
      simp

theorem unify_merge_spec (data : GraphData) (newLinks : List GraphLink)
    (h : 1 < (findDisconnectedComponents data).length) :
    (unifyGraph data newLinks).unifiedData.nodes = data.nodes ∧
    (unifyGraph data newLinks).unifiedData.links
      = data.links ++ newLinks.filter
          (acceptCandidate (data.nodes.map (fun n => n.id)) (existingUnifyKeys data)) ∧
    (unifyGraph data newLinks).addedLinksCount
      = (newLinks.filter
          (acceptCandidate (data.nodes.map (fun n => n.id)) (existingUnifyKeys data))).length := by
  unfold unifyGraph
  rw [if_neg (by omega)]
  refine ⟨rfl, ?_, ?_⟩
  · show (newLinks.foldl (mergeStep (data.nodes.map (fun n => n.id))
        (data.links.map (fun l =>
          getNodeId l.source ++ "|" ++ getNodeId l.target ++ "|" ++ l.relationship)))
        (data.links, 0)).1 = _
    rw [mergeStep_fold]
    simp [existingUnifyKeys]
  · show (newLinks.foldl (mergeStep (data.nodes.map (fun n => n.id))
        (data.links.map (fun l =>
          getNodeId l.source ++ "|" ++ getNodeId l.target ++ "|" ++ l.relationship)))
        (data.links, 0)).2 = _
    rw [mergeStep_fold]
    simp [existingUnifyKeys]

theorem unify_noop_spec (data : GraphData) (newLinks : List GraphLink)
    (h : (findDisconnectedComponents data).length ≤ 1) :
    unifyGraph data newLinks
      = { unifiedData := data, addedLinksCount := 0,
          clustersCount := (findDisconnectedComponents data).length,
          validation := validateGraph data } := by
  unfold unifyGraph
  rw [if_pos h]

end UnifyProofs

/-- C1: every link of the unified graph is either a pre-existing link or a
candidate from the bridging batch whose resolved endpoints are both ids of
existing nodes — a candidate with an unknown endpoint is dropped and never
appears in the unified link list. -/
theorem claim_C1_candidate_filter (data : GraphData) (newLinks : List GraphLink) :
    ∀ l ∈ (unifyGraph data newLinks).unifiedData.links,
      l ∈ data.links ∨ (l ∈ newLinks ∧
        getNodeId l.source ∈ data.nodes.map (fun n => n.id) ∧
        getNodeId l.target ∈ data.nodes.map (fun n => n.id)) := by
  intro l hl
  by_cases h : (findDisconnectedComponents data).length ≤ 1
  · rw [UnifyProofs.unify_noop_spec data newLinks h] at hl
    exact Or.inl hl
  · obtain ⟨_, hlinks, _⟩ := UnifyProofs.unify_merge_spec data newLinks (by omega)
    rw [hlinks] at hl
    rcases List.mem_append.mp hl with hl | hl
    · exact Or.inl hl
    · obtain ⟨hmem, hacc⟩ := List.mem_filter.mp hl
      simp only [acceptCandidate, Bool.and_eq_true] at hacc
      refine Or.inr ⟨hmem, ?_, ?_⟩
      · exact List.elem_iff.mp hacc.1.1
      · exact List.elem_iff.mp hacc.1.2

theorem claim_C1_witness :
    (⟨NodeRef.str "A", NodeRef.str "B", "r"⟩ : GraphLink)
        ∈ (⟨[⟨"A", "Alpha", "t", "d", none, none⟩, ⟨"B", "Beta", "t", "d", none, none⟩],
           [⟨NodeRef.str "A", NodeRef.str "B", "r"⟩]⟩ : GraphData).links ∨
      ((⟨NodeRef.str "A", NodeRef.str "B", "r"⟩ : GraphLink) ∈ ([] : List GraphLink) ∧
        getNodeId (NodeRef.str "A")
          ∈ (⟨[⟨"A", "Alpha", "t", "d", none, none⟩, ⟨"B", "Beta", "t", "d", none, none⟩],
             [⟨NodeRef.str "A", NodeRef.str "B", "r"⟩]⟩ : GraphData).nodes.map (fun n => n.id) ∧
        getNodeId (NodeRef.str "B")
          ∈ (⟨[⟨"A", "Alpha", "t", "d", none, none⟩, ⟨"B", "Beta", "t", "d", none, none⟩],
             [⟨NodeRef.str "A", NodeRef.str "B", "r"⟩]⟩ : GraphData).nodes.map (fun n => n.id)) :=
  claim_C1_candidate_filter
    ⟨[⟨"A", "Alpha", "t", "d", none, none⟩, ⟨"B", "Beta", "t", "d", none, none⟩],
     [⟨NodeRef.str "A", NodeRef.str "B", "r"⟩]⟩ []
    ⟨NodeRef.str "A", NodeRef.str "B", "r"⟩ (by decide)

/-- C2: for a graph with more than one component, the reported
`clustersCount` is the cluster count recomputed on the merged graph
(the post-merge count), not the pre-merge count. -/
theorem claim_C2_postmerge_count (data : GraphData) (newLinks : List GraphLink)
    (h : 1 < (findDisconnectedComponents data).length) :
    (unifyGraph data newLinks).clustersCount
      = (findDisconnectedComponents (unifyGraph data newLinks).unifiedData).length := by
  unfold unifyGraph
  rw [if_neg (by omega)]

theorem claim_C2_witness :
    1 < (findDisconnectedComponents
      ⟨[⟨"A", "Alpha", "t", "d", none, none⟩, ⟨"B", "Beta", "t", "d", none, none⟩],
       []⟩).length ∧
    (unifyGraph ⟨[⟨"A", "Alpha", "t", "d", none, none⟩, ⟨"B", "Beta", "t", "d", none, none⟩], []⟩
        [⟨NodeRef.str "A", NodeRef.str "B", "bridges"⟩]).clustersCount
      = (findDisconnectedComponents
          (unifyGraph ⟨[⟨"A", "Alpha", "t", "d", none, none⟩,
              ⟨"B", "Beta", "t", "d", none, none⟩], []⟩
            [⟨NodeRef.str "A", NodeRef.str "B", "bridges"⟩]).unifiedData).length ∧
    (unifyGraph ⟨[⟨"A", "Alpha", "t", "d", none, none⟩, ⟨"B", "Beta", "t", "d", none, none⟩], []⟩
        [⟨NodeRef.str "A", NodeRef.str "B", "bridges"⟩]).clustersCount = 1 ∧
    (findDisconnectedComponents
      ⟨[⟨"A", "Alpha", "t", "d", none, none⟩, ⟨"B", "Beta", "t", "d", none, none⟩],
       []⟩).length = 2 :=
  ⟨by decide,
   claim_C2_postmerge_count
     ⟨[⟨"A", "Alpha", "t", "d", none, none⟩, ⟨"B", "Beta", "t", "d", none, none⟩], []⟩
     [⟨NodeRef.str "A", NodeRef.str "B", "bridges"⟩] (by decide),
   by decide, by decide⟩

/-- C3 fails on the code: neither version of the merge loop records the
keys of candidates it has already accepted, so two candidates with equal
keys in one batch are both appended — here `addedLinksCount = 2` and the
duplicate appears twice, where the claim demands at most one appended
link. -/
theorem claim_C3_counterexample :
    (unifyGraph ⟨[⟨"A", "Alpha", "t", "d", none, none⟩, ⟨"B", "Beta", "t", "d", none, none⟩], []⟩
        [⟨NodeRef.str "A", NodeRef.str "B", "r"⟩,
         ⟨NodeRef.str "A", NodeRef.str "B", "r"⟩]).addedLinksCount = 2 ∧
    (unifyGraph ⟨[⟨"A", "Alpha", "t", "d", none, none⟩, ⟨"B", "Beta", "t", "d", none, none⟩], []⟩
        [⟨NodeRef.str "A", NodeRef.str "B", "r"⟩,
         ⟨NodeRef.str "A", NodeRef.str "B", "r"⟩]).unifiedData.links
      = [⟨NodeRef.str "A", NodeRef.str "B", "r"⟩, ⟨NodeRef.str "A", NodeRef.str "B", "r"⟩] := by
  refine ⟨by decide, by decide⟩

/-- C3 amended: the merge loop deduplicates only against the pre-existing
links' keys — the final link list is exactly the input links followed by
the candidates whose endpoints are known and whose key is not an existing
link's key, and `addedLinksCount` counts exactly those; in particular a
candidate whose key already exists in the graph is never accepted, but
candidates are not deduplicated against candidates accepted earlier in the
same batch. -/
theorem claim_C3_dedup (data : GraphData) (newLinks : List GraphLink)
    (h : 1 < (findDisconnectedComponents data).length) :
    (unifyGraph data newLinks).unifiedData.links
      = data.links ++ newLinks.filter
          (acceptCandidate (data.nodes.map (fun n => n.id)) (existingUnifyKeys data)) ∧
    (unifyGraph data newLinks).addedLinksCount
      = (newLinks.filter
          (acceptCandidate (data.nodes.map (fun n => n.id)) (existingUnifyKeys data))).length ∧
    (∀ link : GraphLink,
      (existingUnifyKeys data).contains (unifyLinkKey link) = true →
      acceptCandidate (data.nodes.map (fun n => n.id)) (existingUnifyKeys data) link = false) := by
  obtain ⟨_, h1, h2⟩ := UnifyProofs.unify_merge_spec data newLinks h
  refine ⟨h1, h2, ?_⟩
  intro link hk
  have hk2 : (getNodeId link.source ++ "|" ++ getNodeId link.target ++ "|" ++ link.relationship)
      ∈ existingUnifyKeys data := List.elem_iff.mp hk
  simp [acceptCandidate, hk2]

theorem claim_C3_witness :
    (unifyGraph ⟨[⟨"A", "Alpha", "t", "d", none, none⟩, ⟨"B", "Beta", "t", "d", none, none⟩,
        ⟨"C", "Gamma", "t", "d", none, none⟩],
        [⟨NodeRef.str "A", NodeRef.str "B", "r"⟩]⟩
        [⟨NodeRef.str "A", NodeRef.str "B", "r"⟩]).unifiedData.links
      = [⟨NodeRef.str "A", NodeRef.str "B", "r"⟩] ∧
    (unifyGraph ⟨[⟨"A", "Alpha", "t", "d", none, none⟩, ⟨"B", "Beta", "t", "d", none, none⟩,
        ⟨"C", "Gamma", "t", "d", none, none⟩],
        [⟨NodeRef.str "A", NodeRef.str "B", "r"⟩]⟩
        [⟨NodeRef.str "A", NodeRef.str "B", "r"⟩]).addedLinksCount = 0 := by
  obtain ⟨h1, h2, _⟩ := claim_C3_dedup
    ⟨[⟨"A", "Alpha", "t", "d", none, none⟩, ⟨"B", "Beta", "t", "d", none, none⟩,
      ⟨"C", "Gamma", "t", "d", none, none⟩], [⟨NodeRef.str "A", NodeRef.str "B", "r"⟩]⟩
    [⟨NodeRef.str "A", NodeRef.str "B", "r"⟩] (by decide)
  constructor
  · rw [h1]
    decide
  · rw [h2]
    decide

/-- C10: unification preserves all pre-existing content — the node list is
returned unchanged and the link list is the input link list (in order)
with any accepted candidates appended after it. -/
theorem claim_C10_frame (data : GraphData) (newLinks : List GraphLink) :
    (unifyGraph data newLinks).unifiedData.nodes = data.nodes ∧
    ∃ appended, (unifyGraph data newLinks).unifiedData.links = data.links ++ appended ∧
      ∀ l ∈ appended, l ∈ newLinks := by
  by_cases h : (findDisconnectedComponents data).length ≤ 1
  · rw [UnifyProofs.unify_noop_spec data newLinks h]
    exact ⟨rfl, [], by simp, by intro l hl; cases hl⟩
  · obtain ⟨h1, h2, _⟩ := UnifyProofs.unify_merge_spec data newLinks (by omega)
    refine ⟨h1, _, h2, ?_⟩
    intro l hl
    exact List.mem_of_mem_filter hl

theorem unify_key_length (l : GraphLink) :
    (unifyLinkKey l).length
      = (getNodeId l.source).length + (getNodeId l.target).length
        + l.relationship.length + 2 := by
  have h1 : ("|" : String).length = 1 := rfl
  simp [unifyLinkKey, String.length_append, h1]
  omega

theorem build_key_length (l : GraphLink) :
    (buildLinkKey l).length
      = (getNodeId l.source).length + (getNodeId l.target).length
        + l.relationship.length + 4 := by
  have h2 : ("__" : String).length = 2 := rfl
  by_cases hr : l.relationship = ""
  · simp [buildLinkKey, hr, String.length_append, h2]
    omega
  · simp [buildLinkKey, hr, String.length_append, h2]
    omega

/-- C5 fails on the code: on the link `A -r-> B` the merge-dedup key is
`"A|B|r"` while `buildLinkKey` yields `"A__r__B"`. -/
theorem claim_C5_counterexample :
    unifyLinkKey ⟨NodeRef.str "A", NodeRef.str "B", "r"⟩ = "A|B|r" ∧
    buildLinkKey ⟨NodeRef.str "A", NodeRef.str "B", "r"⟩ = "A__r__B" ∧
    ("A|B|r" : String) ≠ "A__r__B" := by
  refine ⟨by decide, by decide, by decide⟩

/-- C5 amended: `unifyGraph` deduplicates with its own inline key — resolved
source, resolved target, relationship joined in that order by a single
`"|"` — used identically for the existing-link key set and for each
candidate (`unifyLinkKey`), and this key is never equal to `buildLinkKey`
of the same link (which joins source, relationship-or-empty, target with
`"__"`): the two key builders always disagree. -/
theorem claim_C5_keys :
    (∀ data : GraphData, existingUnifyKeys data = data.links.map unifyLinkKey) ∧
    (∀ link : GraphLink, unifyLinkKey link
        = getNodeId link.source ++ "|" ++ getNodeId link.target ++ "|" ++ link.relationship) ∧
    (∀ link : GraphLink, unifyLinkKey link ≠ buildLinkKey link) := by
  refine ⟨fun data => rfl, fun link => rfl, ?_⟩
  intro link heq
  have hlen := congrArg String.length heq
  rw [unify_key_length, build_key_length] at hlen
  omega

/-- C4 fails on the code: with the two-cluster graph `{A, B}` and a raised
bridging request, the refine flow still completes (the catch arm that
surfaces "Failed to refine the graph." is not taken) — the failure is
swallowed, though the graph is indeed left unchanged. -/
theorem claim_C4_counterexample :
    (handleRefineGraph
        ⟨[⟨"A", "Alpha", "t", "d", none, none⟩, ⟨"B", "Beta", "t", "d", none, none⟩], []⟩
        (Except.error "network error")).1 = RefineOutcome.completed ∧
    RefineOutcome.completed ≠ RefineOutcome.failed ∧
    (handleRefineGraph
        ⟨[⟨"A", "Alpha", "t", "d", none, none⟩, ⟨"B", "Beta", "t", "d", none, none⟩], []⟩
        (Except.error "network error")).2
      = ⟨[⟨"A", "Alpha", "t", "d", none, none⟩, ⟨"B", "Beta", "t", "d", none, none⟩], []⟩ ∧
    1 < (findDisconnectedComponents
        ⟨[⟨"A", "Alpha", "t", "d", none, none⟩, ⟨"B", "Beta", "t", "d", none, none⟩],
         []⟩).length := by
  refine ⟨by decide, by decide, by decide, by decide⟩

/-- C4 amended: when the bridging request raises, the error is caught
inside `findBridgesBetweenClusters`, which returns an empty candidate
list; the refinement then completes as a success with zero added links and
the caller's graph left unchanged — no failure is surfaced to the user. -/
theorem claim_C4_bridge_failure (data : GraphData) (err : String) :
    findBridgesBetweenClusters (Except.error err) = [] ∧
    handleRefineGraph data (Except.error err) = (RefineOutcome.completed, data) := by
  have hz : (unifyGraph data []).addedLinksCount = 0 := by
    by_cases h : (findDisconnectedComponents data).length ≤ 1
    · rw [UnifyProofs.unify_noop_spec data [] h]
    · obtain ⟨_, _, h2⟩ := UnifyProofs.unify_merge_spec data [] (by omega)
      rw [h2]
      simp
  refine ⟨rfl, ?_⟩
  unfold handleRefineGraph findBridgesBetweenClusters
  simp [hz]

theorem claim_C7_witness :
    normalizeGraphPayload (normalizeGraphPayload ⟨[sampleNodeA, sampleNodeZeroVal],
        [⟨NodeRef.str "A", NodeRef.str "A", "self"⟩, ⟨NodeRef.str "A", NodeRef.str "Q", "bad"⟩]⟩)
      = normalizeGraphPayload ⟨[sampleNodeA, sampleNodeZeroVal],
        [⟨NodeRef.str "A", NodeRef.str "A", "self"⟩, ⟨NodeRef.str "A", NodeRef.str "Q", "bad"⟩]⟩ :=
  claim_C7_normalize_idempotent ⟨[sampleNodeA, sampleNodeZeroVal],
    [⟨NodeRef.str "A", NodeRef.str "A", "self"⟩, ⟨NodeRef.str "A", NodeRef.str "Q", "bad"⟩]⟩

theorem claim_C10_witness :
    (unifyGraph ⟨[sampleNodeA, sampleNodeB], []⟩
        [⟨NodeRef.str "A", NodeRef.str "B", "r"⟩]).unifiedData.nodes
      = [sampleNodeA, sampleNodeB] ∧
    ∃ appended,
      (unifyGraph ⟨[sampleNodeA, sampleNodeB], []⟩
          [⟨NodeRef.str "A", NodeRef.str "B", "r"⟩]).unifiedData.links
        = [] ++ appended ∧
      ∀ l ∈ appended, l ∈ [(⟨NodeRef.str "A", NodeRef.str "B", "r"⟩ : GraphLink)] :=
  claim_C10_frame ⟨[sampleNodeA, sampleNodeB], []⟩ [⟨NodeRef.str "A", NodeRef.str "B", "r"⟩]

theorem claim_C5_witness :
    unifyLinkKey ⟨NodeRef.str "x", NodeRef.str "y", ""⟩
      ≠ buildLinkKey ⟨NodeRef.str "x", NodeRef.str "y", ""⟩ :=
  claim_C5_keys.2.2 ⟨NodeRef.str "x", NodeRef.str "y", ""⟩

theorem claim_C4_witness :
    findBridgesBetweenClusters (Except.error "boom") = [] ∧
    handleRefineGraph ⟨[sampleNodeA], []⟩ (Except.error "boom")
      = (RefineOutcome.completed, ⟨[sampleNodeA], []⟩) :=
  claim_C4_bridge_failure ⟨[sampleNodeA], []⟩ "boom"
